import Mathlib

set_option maxRecDepth 8192

/-!
# Verification of dblfinder (v0.4.3, `main.go`)

A shallow embedding of the duplicate-file finder `dblfinder` and proofs about
its behaviour.  File contents are modelled as `List Nat` (byte sequences),
paths as `String`, the file system as a partial map `String → Option (List Nat)`.
The md5 digest is modelled as an injective fingerprint of the hashed buffer
(the spec treats the hash as a pure equality probe and explicitly excludes
collision resistance from scope), so a digest is represented by the buffer
itself.

Stateful parts (the goroutine pool of `getUniqueHashes`) are modelled as an
explicit small-step transition system; interactive input (`readInt`) is
modelled by threading an explicit list of stdin tokens.
-/

namespace Dblfinder

/-! ## Fingerprinting (`hashWorker`, main.go lines 413-453)

`hashWorker` opens the file, reads at most 1024 bytes into a zero-initialised
1024-byte buffer (`data := make([]byte, 1024)`; `f.Read(data)`), and hashes
the whole buffer.  `os.Open` failure, `f.Read` failure (including `io.EOF`,
which `Read` returns for a zero-length file), `f.Close` failure and hash-write
failure all call `log.Fatal*`, aborting the entire process. -/

/-- The fixed sample size of `hashWorker`: `data := make([]byte, 1024)`. -/
def sampleSize : Nat := 1024

/-- The exact byte buffer `hashWorker` feeds to the hasher: the first
`sampleSize` bytes of the file, zero-padded to length `sampleSize`
(Go's `make([]byte, n)` zero-initialises, and `f.Read` only overwrites
the first `min contents.length 1024` bytes). -/
def sampleBuf (contents : List Nat) : List Nat :=
  contents.take sampleSize ++ List.replicate (sampleSize - contents.length) 0

/-- Digest model: md5 is modelled as an injective function of the hashed
buffer (the hash is a heuristic equality probe per the spec; collision
resistance is out of scope), so we represent the digest by the buffer. -/
def md5sum (data : List Nat) : List Nat := data

/-- The record a worker pushes into the channel (`md5ToHash`, lines 407-411).
In v0.4.3 workers only ever send records with `err = none`; the field is kept
because the collector `getHashResults` still branches on it. -/
structure Md5ToHash where
  path : String
  md5 : List Nat
  err : Option String
  deriving DecidableEq, Repr

/-- Outcome of one `hashWorker` call: either the whole process is aborted by a
`log.Fatal*` call, or exactly one record is delivered on the channel. -/
inductive WorkerOutcome where
  | fatal : WorkerOutcome
  | sent : Md5ToHash → WorkerOutcome
  deriving DecidableEq, Repr

/-- `hashWorker` (main.go lines 414-453), as a function of the file system:
* `os.Open` fails (file absent/unreadable) → `log.Fatal(err)` — process abort;
* `f.Read` on a zero-length file returns `(0, io.EOF)` → `log.Fatalf` — abort;
* otherwise the first `min len 1024` bytes land in the zeroed 1024-byte
  buffer, the whole buffer is hashed and the record is sent with `err = nil`. -/
def hashWorker (fs : String → Option (List Nat)) (path : String) : WorkerOutcome :=
  match fs path with
  | none => .fatal
  | some contents =>
    if contents.length = 0 then .fatal
    else .sent ⟨path, md5sum (sampleBuf contents), none⟩

/-! ## Result collection (`getHashResults`, main.go lines 474-493)

The collector receives `max` records and folds them into the Go map
`uniqueHashes`; a record with a non-nil `err` is reported and skipped
(`continue`).  The map is modelled as an association list keyed by digest;
`Go` map lookup corresponds to `List.lookup`. -/

/-- One Go-map insertion step of `getHashResults` (lines 485-489): append the
path to the existing entry for this digest, or create a fresh entry. -/
def insertHash (m : List (List Nat × List String)) (d : List Nat) (p : String) :
    List (List Nat × List String) :=
  match m with
  | [] => [(d, [p])]
  | (d', ps) :: rest =>
    if d' = d then (d', ps ++ [p]) :: rest else (d', ps) :: insertHash rest d p

/-- `getHashResults` (main.go lines 474-493) over the list of records in the
order they were received: skip records carrying an error, insert the rest. -/
def getHashResults (records : List Md5ToHash) : List (List Nat × List String) :=
  records.foldl (fun m r => if r.err.isSome then m else insertHash m r.md5 r.path) []

/-- The group of paths a digest maps to (Go map read; absent key = empty). -/
def groupOf (m : List (List Nat × List String)) (d : List Nat) : List String :=
  (m.lookup d).getD []

/-- One size bucket run of `getUniqueHashes`+`getHashResults`, abstracting the
(sequential core of the) worker pool: every file gets exactly one worker; if
any worker hits `log.Fatal` the whole run dies (`none`), otherwise each worker
delivers its record. -/
def runBucket (fs : String → Option (List Nat)) : List String → Option (List Md5ToHash)
  | [] => some []
  | p :: ps =>
    match hashWorker fs p with
    | .fatal => none
    | .sent r =>
      match runBucket fs ps with
      | none => none
      | some rs => some (r :: rs)

/-! ## Resolution engine (`cleanUp`, `readInt`, `deleteOtherFiles`,
main.go lines 499-585)

Interactive input is modelled as a list of stdin tokens, each either
`some i` (the token `fmt.Scanf("%d", &i)` parses as the integer `i`) or
`none` (a token `Scanf` fails on).  The prefer regexp is modelled as an
optional predicate on paths (`regexp.MatchString`); `none` embeds
`preferRegexp == nil` (no `-prefer` flag). -/

/-- One stdin token: `some i` parses as `i`, `none` makes `Scanf` error. -/
abbrev StdinTok := Option Int

/-- `readInt` (main.go lines 551-569): scan tokens until one parses;
a `Scanf` error sets `i = 0` and `continue`s, an explicit `0` returns `0`
immediately, a value in `[1, max]` ends the loop and is returned, anything
else (`i < 0` or `i > max`) re-prompts.  `none` models an exhausted input
stream (the Go loop would block forever). -/
def readInt (max : Nat) : List StdinTok → Option (Int × List StdinTok)
  | [] => none
  | tok :: rest =>
    match tok with
    | none => readInt max rest
    | some i =>
      if i = 0 then some (0, rest)
      else if 1 ≤ i ∧ i ≤ (max : Int) then some (i, rest)
      else readInt max rest

/-- The composed effect of `cleanUp`'s input loop
`for keep < 1 || keep > len(files) { keep = readInt(len(files)) }`
(main.go lines 534-536) once it starts reading: since `readInt` only returns
`0` (on which the outer loop immediately calls `readInt` again) or a value in
`[1, max]`, the loop consumes tokens until the first one parsing to a value
in `[1, max]`.  Stated as a structurally recursive scan; the equivalence with
iterating `readInt` is proved in `scanValid_eq_readInt_*` below. -/
def scanValid (max : Nat) : List StdinTok → Option (Int × List StdinTok)
  | [] => none
  | tok :: rest =>
    match tok with
    | none => scanValid max rest
    | some i =>
      if 1 ≤ i ∧ i ≤ (max : Int) then some (i, rest)
      else scanValid max rest

/-- `cleanUp`'s input loop (main.go lines 534-536): skipped entirely when the
incoming `keep` is already in `[1, n]`, otherwise reads until valid. -/
def promptLoop (n : Nat) (keep : Int) (stdin : List StdinTok) :
    Option (Int × List StdinTok) :=
  if 1 ≤ keep ∧ keep ≤ (n : Int) then some (keep, stdin)
  else scanValid n stdin

/-- The prefer-scan of `cleanUp` (main.go lines 512-527): `keep` starts at 0;
for each file in display order, if a regexp is configured, `keep` has not been
poisoned to `-1`, and the file matches, then `keep` becomes the file's 1-based
index — unless some earlier file already matched, in which case `keep` is
poisoned to `-1` ("We found more than one preferred file here...").  Result:
`0` = no pattern or no match, `-1` = several matches, `i ∈ [1, n]` = the
unique matching file's display index. -/
def computeKeepStep (pat : Option (String → Bool)) (keep : Int)
    (kf : Nat × String) : Int :=
  match pat with
  | none => keep
  | some m =>
    if keep < 0 then keep
    else if !(m kf.2) then keep
    else if keep > 0 then -1
    else ((kf.1 : Int) + 1)

/-- The fold of `computeKeepStep` over the displayed files with their 0-based
indices, starting from `keep = 0` (main.go lines 512-527). -/
def computeKeep (pat : Option (String → Bool)) (files : List String) : Int :=
  (files.enum).foldl (computeKeepStep pat) 0

/-- The four ways one duplicate set's iteration of `cleanUp` can end:
* `skippedPreferred` — "Preferred file not found, deletion skipped." (line 530);
* `skippedZero` — "Deletion skipped." (line 539, the `keep == 0` branch);
* `keepIdx k` — "Deleting all, but ..." with 1-based index `k` (lines 540-546);
* `noAction` — neither branch taken (`keep < 0` after the loop). -/
inductive Decision where
  | skippedPreferred : Decision
  | skippedZero : Decision
  | keepIdx : Nat → Decision
  | noAction : Decision
  deriving DecidableEq, Repr

/-- One duplicate set's pass through `cleanUp` (main.go lines 509-547):
prefer-scan, the skip-manual early-out, the input loop, then the
`keep == 0` / `keep > 0` branches.  Returns the decision plus the unconsumed
stdin; `none` models the input loop blocking forever. -/
def resolveSet (pat : Option (String → Bool)) (skipManual : Bool)
    (files : List String) (stdin : List StdinTok) :
    Option (Decision × List StdinTok) :=
  let keep := computeKeep pat files
  if keep < 1 ∧ skipManual then some (.skippedPreferred, stdin)
  else
    match promptLoop files.length keep stdin with
    | none => none
    | some (k, rest) =>
      if k = 0 then some (.skippedZero, rest)
      else if k > 0 then some (.keepIdx k.toNat, rest)
      else some (.noAction, rest)

/-- `deleteOtherFiles` (main.go lines 572-585): the list of files removed,
`append(files[:keep-1], files[keep:]...)` — everything except the
`keep`-th file (1-based). -/
def deleteOtherFiles (files : List String) (keep : Nat) : List String :=
  files.take (keep - 1) ++ files.drop keep

/-! ## Interactive multi-selection parser (`parseRead`, `uniqueInts`)

`main_test.go` exercises `parseRead`, `uniqueInts` and `uniqueStrings`, but no
file under `src/` defines them; they are modelled from the spec and validated
against every test vector of `Test_parseRead` and `Test_uniqueInts`. -/

/-- Modelled from the spec: sorted de-duplicated insertion, the order step of
`uniqueInts` ("de-duplicated, sorted"); `uniqueInts` itself is absent from
`src/`, only `Test_uniqueInts` is. -/
def insertUnique (n : Nat) : List Nat → List Nat
  | [] => [n]
  | m :: rest =>
    if n = m then m :: rest
    else if n < m then n :: m :: rest
    else m :: insertUnique n rest

/-- Modelled from the spec: `uniqueInts` returns its input's values sorted and
de-duplicated (test vector: `[1,1,2,3,2] ↦ [1,2,3]`); the function itself is
absent from `src/`, only `Test_uniqueInts` is. -/
def uniqueInts (l : List Nat) : List Nat := l.foldl (fun acc n => insertUnique n acc) []

/-- Splitting a character list on a separator (the behaviour of
`strings.Split`/`String.splitOn` on the line's characters). -/
def splitOnChar (c : Char) (l : List Char) : List (List Char) :=
  match l with
  | [] => [[]]
  | a :: rest =>
    let r := splitOnChar c rest
    if a = c then [] :: r
    else
      match r with
      | [] => [[a]]
      | g :: gs => (a :: g) :: gs

/-- Decimal digit value of a character, if it is one. -/
def digitVal? (c : Char) : Option Nat :=
  if '0' ≤ c ∧ c ≤ '9' then some (c.toNat - '0'.toNat) else none

/-- Accumulating decimal parser over the token's characters; any non-digit
makes the whole token malformed. -/
def parseNatAux : List Char → Nat → Option Nat
  | [], acc => some acc
  | c :: rest, acc =>
    match digitVal? c with
    | some d => parseNatAux rest (acc * 10 + d)
    | none => none

/-- Non-empty all-digit token to its decimal value (`strconv.Atoi` on
unsigned decimals). -/
def parseNat? : List Char → Option Nat
  | [] => none
  | l => parseNatAux l 0

/-- Modelled from the spec: one token of the interactive selection — either an
individual index or an inclusive range `lo-hi`; indices must lie within
`[1, max]`, a range with lower bound below 1 or an inverted range is rejected,
as is any malformed token.  The selection parser is absent from `src/`, only
`Test_parseRead` is. -/
def parseToken (max : Nat) (tok : List Char) : Option (List Nat) :=
  match splitOnChar '-' tok with
  | [a] =>
    match parseNat? a with
    | some n => if 1 ≤ n ∧ n ≤ max then some [n] else none
    | none => none
  | [a, b] =>
    match parseNat? a, parseNat? b with
    | some lo, some hi =>
      if 1 ≤ lo ∧ lo ≤ hi ∧ hi ≤ max then some (List.range' lo (hi - lo + 1)) else none
    | _, _ => none
  | _ => none

/-- All tokens of a line, each of which must parse; one bad token invalidates
the whole line. -/
def parseTokens (max : Nat) : List (List Char) → Option (List (List Nat))
  | [] => some []
  | t :: ts =>
    match parseToken max t, parseTokens max ts with
    | some l, some ls => some (l :: ls)
    | _, _ => none

/-- Modelled from the spec: `parseRead` accepts a space-separated list of
individual indices and inclusive ranges naming the members to keep; any
malformed or out-of-range token invalidates the whole line (`none`); the named
indices are returned de-duplicated and sorted.  An empty line carries no
selection (`none`, matching `Test_parseRead`'s `("", 2) ↦ (nil, false)`); the
surrounding prompt treats it as keep-all before parsing.  The function is
absent from `src/`, only `Test_parseRead` is. -/
def parseRead (s : String) (max : Nat) : Option (List Nat) :=
  let toks := (splitOnChar ' ' s.data).filter (· ≠ [])
  if toks.isEmpty then none
  else
    match parseTokens max toks with
    | some parts => some (uniqueInts parts.flatten)
    | none => none

/-- Outcome of the interactive selection over one duplicate set. -/
inductive Selection where
  | keepAll : Selection
  | keep : List Nat → Selection
  deriving DecidableEq, Repr

/-- Modelled from the spec: the interactive selection loop over stdin lines —
an empty input means "keep all, delete none" (skip); a line `parseRead`
rejects invalidates the whole line and the prompt repeats on the next line;
an accepted line yields the keep set.  The loop is absent from `src/`. -/
def readKeepSet (max : Nat) : List String → Option Selection
  | [] => none
  | line :: rest =>
    if line = "" then some .keepAll
    else
      match parseRead line max with
      | some ks => some (.keep ks)
      | none => readKeepSet max rest

/-- Modelled from the spec: every decision-eligible member not named by the
accepted selection is deleted. -/
def deletedIndices (max : Nat) (ks : List Nat) : List Nat :=
  (List.range' 1 max).filter (fun i => i ∉ ks)

/-! ## Inventory scanner (`getAllFilesizes`, main.go lines 335-363)

The directory tree is modelled as a mutual inductive: a node is a regular
file (carrying its byte contents; `f.Size()` = contents length), a symlink
alias (`filepath.EvalSymlinks` succeeds but yields a different path — the
visitor skips it), a broken symlink (`EvalSymlinks` fails — the visitor
`panic`s, killing the process), an unreadable directory (`readDirNames`
fails; `filepath.Walk` hands the error to the visitor, which ignores its
`err` argument and returns `nil`, so the directory's contents are silently
skipped and the walk continues), or a readable directory with named entries.
`filepath.Walk` visits entries in sorted name order, so trees are represented
with their sibling lists sorted (`FTree.wf`).  Paths are segment lists;
`flatPath` joins them with `/` exactly as `filepath.Join` does. -/

mutual
inductive FTree where
  | file (contents : List Nat) : FTree
  | linkAlias : FTree
  | badlink : FTree
  | unreadable : FTree
  | dir (entries : Entries) : FTree
inductive Entries where
  | nil : Entries
  | cons (name : String) (t : FTree) (rest : Entries) : Entries
end

/-- `filepath.Join` on the segments of a path: segments joined by `/`. -/
def flatPath : List String → String
  | [] => ""
  | [s] => s
  | s :: rest => s ++ "/" ++ flatPath rest

/-- A legal file/directory name: non-empty and free of the path separator
(true of every name a real directory can contain). -/
def goodName (s : String) : Bool := !s.data.isEmpty && s.data.all (· ≠ '/')

/-- The names of a directory's entries, in listed order. -/
def Entries.names : Entries → List String
  | .nil => []
  | .cons nm _ rest => nm :: Entries.names rest

mutual
/-- The walk of `getAllFilesizes`'s `visit` callback over one node (main.go
lines 338-358 plus `filepath.Walk`'s error contract): files are recorded with
their contents, aliases skipped, a broken symlink panics (`panic(err2)`),
an unreadable directory is skipped because `visit` discards its `err`
argument and returns `nil`, and a readable directory contributes its entries
in order. -/
def scanTree : List String → FTree → Except Unit (List (List String × List Nat))
  | pfx, .file c => .ok [(pfx, c)]
  | _, .linkAlias => .ok []
  | _, .badlink => .error ()
  | _, .unreadable => .ok []
  | pfx, .dir es => scanEntries pfx es
/-- Walk of a directory's entry list, aborting at the first panic. -/
def scanEntries : List String → Entries → Except Unit (List (List String × List Nat))
  | _, .nil => .ok []
  | pfx, .cons nm t rest =>
    match scanTree (pfx ++ [nm]) t with
    | .error e => .error e
    | .ok l₁ =>
      match scanEntries pfx rest with
      | .error e => .error e
      | .ok l₂ => .ok (l₁ ++ l₂)
end

mutual
/-- A broken symlink reachable by the walk (not hidden inside an unreadable
directory, whose contents the walk never visits). -/
def hasBadlink : FTree → Bool
  | .file _ => false
  | .linkAlias => false
  | .badlink => true
  | .unreadable => false
  | .dir es => entriesHasBadlink es
def entriesHasBadlink : Entries → Bool
  | .nil => false
  | .cons _ t rest => hasBadlink t || entriesHasBadlink rest
end

mutual
/-- Well-formed tree: within every directory the entry names are legal file
names and pairwise distinct, as in any real directory.  (`filepath.Walk`
additionally visits them in sorted name order; trees are written in that
order, which the proofs below never depend on.) -/
def FTree.wf : FTree → Bool
  | .file _ => true
  | .linkAlias => true
  | .badlink => true
  | .unreadable => true
  | .dir es => Entries.wf es
/-- Well-formedness of an entry list: legal, pairwise-distinct names and
well-formed subtrees. -/
def Entries.wf : Entries → Bool
  | .nil => true
  | .cons nm t rest =>
    goodName nm && !((Entries.names rest).contains nm) && FTree.wf t &&
      Entries.wf rest
end

/-! ## Size bucketing and the pipeline (`main`, `filterSameSizeFiles`,
`filterSameHashFiles`, main.go lines 296-405) -/

/-- One Go-map insertion step of `getAllFilesizes` (lines 351-355): append the
path under its size, or create a fresh bucket. -/
def insertSize (m : List (Nat × List String)) (sz : Nat) (p : String) :
    List (Nat × List String) :=
  match m with
  | [] => [(sz, [p])]
  | (s, ps) :: rest =>
    if s = sz then (s, ps ++ [p]) :: rest else (s, ps) :: insertSize rest sz p

/-- The size map `getAllFilesizes` builds from the walk's recorded entries. -/
def sizesOf (entries : List (List String × List Nat)) : List (Nat × List String) :=
  entries.foldl (fun m e => insertSize m e.2.length (flatPath e.1)) []

/-- The bucket of paths recorded under one size (Go map read). -/
def bucketPaths (m : List (Nat × List String)) (sz : Nat) : List String :=
  (m.lookup sz).getD []

/-- `getAllFilesizes` (main.go lines 335-363): walk the tree from `root`,
then group the recorded paths by exact byte size; a walk panic kills the run. -/
def getAllFilesizes (root : String) (t : FTree) :
    Except Unit (List (Nat × List String)) :=
  match scanTree [root] t with
  | .error e => .error e
  | .ok entries => .ok (sizesOf entries)

/-- `filterSameSizeFiles` (main.go lines 366-378): keep only buckets with at
least two paths, and count the retained paths. -/
def filterSameSizeFiles (m : List (Nat × List String)) :
    List (Nat × List String) × Nat :=
  let kept := m.filter (fun b => 1 < b.2.length)
  (kept, kept.foldl (fun c b => c + b.2.length) 0)

/-- The file system the workers read, reconstructed from the walk's records
(the tree is unchanged between walking and hashing). -/
def fsOfScan (entries : List (List String × List Nat)) :
    String → Option (List Nat) :=
  fun p => (entries.map (fun e => (flatPath e.1, e.2))).lookup p

/-- `filterSameHashFiles` (main.go lines 381-405): hash every same-size
bucket and flatten the digest groups with at least two members; `none` models
a worker's `log.Fatal` killing the run.  (Go iterates its maps in arbitrary
order; insertion order is used here — one of the possible orders.) -/
def filterSameHashFiles (fs : String → Option (List Nat))
    (buckets : List (Nat × List String)) : Option (List (List String) × Nat) :=
  match buckets.mapM (fun b =>
      (runBucket fs b.2).map (fun recs =>
        ((getHashResults recs).map (·.2)).filter (fun ps => 1 < ps.length))) with
  | none => none
  | some gs =>
    let sets := gs.flatten
    some (sets, sets.foldl (fun c s => c + s.length) 0)

/-- `main`'s pipeline up to the point where a duplicate report exists
(main.go lines 303-331): a walk panic yields no report (`error`); otherwise
the duplicate sets handed to `cleanUp`/`listAll` — `some sets` — are computed
from whatever the walk recorded (inner `none` models a hash worker's
`log.Fatal`). -/
def dupReport (root : String) (t : FTree) :
    Except Unit (Option (List (List String))) :=
  match scanTree [root] t with
  | .error e => .error e
  | .ok entries =>
    .ok ((filterSameHashFiles (fsOfScan entries)
      (filterSameSizeFiles (sizesOf entries)).1).map (·.1))

/-! ## The worker pool as a transition system (`getUniqueHashes`,
main.go lines 456-471)

`getUniqueHashes` spawns one goroutine per file; after spawning goroutine `i`
it calls `wg.Wait()` whenever `fsLimit > 0 && i % fsLimit == 0`; after the
loop it receives `len(files)` results.  Each worker runs `wg.Add(1)` as its
*first statement* (not before being spawned), computes its hash, sends on the
unbuffered channel `md5s`, and only then runs the deferred `wg.Done()`.

States: `ws` lists the phase of every goroutine spawned so far (`spawned` =
not yet scheduled, `added` = past `wg.Add(1)`, `ready` = hash computed and
blocked on the channel send, `sent` = result delivered and `wg.Done()` run);
`pc` is the spawning loop / collector position.  `n` files, limit `L`. -/

/-- Phase of one spawned hash goroutine. -/
inductive WPhase where
  | spawned : WPhase
  | added : WPhase
  | ready : WPhase
  | sent : WPhase
  deriving DecidableEq, Repr

/-- Position of `getUniqueHashes`'s own control flow: spawning iteration `i`,
blocked in `wg.Wait()` after spawning `i`, receiving result `k` in
`getHashResults`, or returned. -/
inductive MainPC where
  | launch : Nat → MainPC
  | waitWG : Nat → MainPC
  | collect : Nat → MainPC
  | finished : MainPC
  deriving DecidableEq, Repr

/-- A state of the engine: worker phases (index = spawn order) and the main
goroutine's position. -/
structure EngState where
  ws : List WPhase
  pc : MainPC
  deriving DecidableEq, Repr

/-- The `WaitGroup` counter: workers past `wg.Add(1)` whose deferred
`wg.Done()` (which runs only after the channel send) has not yet run. -/
def wgCount (ws : List WPhase) : Nat :=
  ws.countP (fun w => w == .added || w == .ready)

/-- Workers launched and not yet done — each holds (or is about to hold) an
open file descriptor. -/
def inFlight (ws : List WPhase) : Nat :=
  ws.countP (fun w => !(w == .sent))

/-- Loop continuation after iteration `i` of the spawning loop. -/
def afterLaunch (n i : Nat) : MainPC :=
  if i + 1 < n then .launch (i + 1) else .collect 0

/-- Position right after `go hashWorker(...)` in iteration `i`: enter
`wg.Wait()` iff `fsLimit > 0 && i % fsLimit == 0` (main.go line 462). -/
def launchNext (n L i : Nat) : MainPC :=
  if 0 < L ∧ i % L = 0 then .waitWG i else afterLaunch n i

/-- Small-step transition relation of `getUniqueHashes` with `n` files and
`fsLimit = L`:
* `spawn` — the loop body spawns goroutine `i` (it starts in `spawned`);
* `add` — a spawned goroutine gets scheduled and runs `wg.Add(1)`;
* `hash` — an added goroutine finishes hashing and blocks on the send;
* `waitPass` — `wg.Wait()` returns, which requires counter zero;
* `recv` — the collector receives from a goroutine blocked on the send, after
  which its deferred `wg.Done()` runs (`ready → sent`);
* `finish` — the collector has received all `n` results and returns. -/
inductive Step (n L : Nat) : EngState → EngState → Prop
  | spawn (i : Nat) (ws : List WPhase) : i < n →
      Step n L ⟨ws, .launch i⟩ ⟨ws ++ [.spawned], launchNext n L i⟩
  | add (w : Nat) (ws : List WPhase) (pc : MainPC) : ws.get? w = some .spawned →
      Step n L ⟨ws, pc⟩ ⟨ws.set w .added, pc⟩
  | hash (w : Nat) (ws : List WPhase) (pc : MainPC) : ws.get? w = some .added →
      Step n L ⟨ws, pc⟩ ⟨ws.set w .ready, pc⟩
  | waitPass (i : Nat) (ws : List WPhase) : wgCount ws = 0 →
      Step n L ⟨ws, .waitWG i⟩ ⟨ws, afterLaunch n i⟩
  | recv (w k : Nat) (ws : List WPhase) : k < n → ws.get? w = some .ready →
      Step n L ⟨ws, .collect k⟩ ⟨ws.set w .sent, .collect (k + 1)⟩
  | finish (ws : List WPhase) :
      Step n L ⟨ws, .collect n⟩ ⟨ws, .finished⟩

/-- Initial state: no goroutine spawned; with at least one file the loop body
runs, otherwise the engine goes straight to collecting zero results. -/
def engInit (n : Nat) : EngState :=
  ⟨[], if 0 < n then .launch 0 else .collect 0⟩

/-- Reachability under the engine's step relation. -/
def EngReach (n L : Nat) : EngState → EngState → Prop :=
  Relation.ReflTransGen (Step n L)

/-! ## Lexicographic path order

Byte-wise (character-wise) lexicographic comparison of path strings, used to
state the spec's "lexicographically sorted order" executably. -/

/-- Strict character-wise lexicographic order on character lists. -/
def lexLt : List Char → List Char → Bool
  | [], [] => false
  | [], _ :: _ => true
  | _ :: _, [] => false
  | a :: as, b :: bs => if a < b then true else if b < a then false else lexLt as bs

/-- Strict lexicographic order on path strings. -/
def pathLt (a b : String) : Bool := lexLt a.data b.data

/-- A list of paths is in (non-strict) lexicographic order. -/
def lexSorted : List String → Bool
  | [] => true
  | [_] => true
  | a :: b :: rest => (pathLt a b || a == b) && lexSorted (b :: rest)

/-! ## Helper lemmas: digest grouping -/

theorem groupOf_insertHash_self (m : List (List Nat × List String)) (d : List Nat)
    (p : String) : groupOf (insertHash m d p) d = groupOf m d ++ [p] := by
  induction m with
  | nil => simp [insertHash, groupOf]
  | cons hd tl ih =>
    obtain ⟨d', ps⟩ := hd
    by_cases h : d' = d
    · subst h
      simp [insertHash, groupOf, List.lookup]
    · simp only [insertHash, if_neg h, groupOf, List.lookup,
        beq_false_of_ne (Ne.symm h)] at ih ⊢
      exact ih

theorem groupOf_insertHash_ne (m : List (List Nat × List String)) (d d' : List Nat)
    (p : String) (h : d' ≠ d) : groupOf (insertHash m d p) d' = groupOf m d' := by
  induction m with
  | nil => simp [insertHash, groupOf, List.lookup, beq_false_of_ne h]
  | cons hd tl ih =>
    obtain ⟨k, ps⟩ := hd
    by_cases hk : k = d
    · subst hk
      simp [insertHash, groupOf, List.lookup, beq_false_of_ne h]
    · by_cases hk' : k = d'
      · subst hk'
        simp [insertHash, if_neg hk, groupOf, List.lookup]
      · simp only [insertHash, if_neg hk, groupOf, List.lookup,
          beq_false_of_ne (Ne.symm hk')] at ih ⊢
        exact ih

/-- The collector's group for a digest is exactly the successful records
carrying that digest, in arrival order (`getHashResults`, lines 474-493). -/
theorem groupOf_foldl (records : List Md5ToHash) (m : List (List Nat × List String))
    (d : List Nat) :
    groupOf (records.foldl
        (fun m r => if r.err.isSome then m else insertHash m r.md5 r.path) m) d =
      groupOf m d ++
        (records.filter (fun r => r.err.isNone && r.md5 == d)).map (·.path) := by
  induction records generalizing m with
  | nil => simp
  | cons r rs ih =>
    simp only [List.foldl_cons, List.filter_cons]
    rcases hr : r.err with _ | e
    · by_cases hd : r.md5 = d
      · simp [hr, hd, ih, groupOf_insertHash_self]
      · simp [hr, beq_false_of_ne hd, ih,
          groupOf_insertHash_ne m r.md5 d r.path (Ne.symm hd)]
    · simp [hr, ih]

theorem groupOf_getHashResults (records : List Md5ToHash) (d : List Nat) :
    groupOf (getHashResults records) d =
      (records.filter (fun r => r.err.isNone && r.md5 == d)).map (·.path) := by
  simpa [groupOf] using groupOf_foldl records [] d

/-- A successful bucket run delivers exactly one record per file, carrying the
digest of the file's sampled buffer. -/
theorem runBucket_eq_map (fs : String → Option (List Nat)) (files : List String)
    (recs : List Md5ToHash) (h : runBucket fs files = some recs) :
    recs = files.map (fun p => ⟨p, md5sum (sampleBuf ((fs p).getD [])), none⟩) := by
  induction files generalizing recs with
  | nil => simp [runBucket] at h; simp [h]
  | cons p ps ih =>
    rcases hw : hashWorker fs p with _ | r
    · simp [runBucket, hw] at h
    · rcases hrest : runBucket fs ps with _ | rs
      · simp [runBucket, hw, hrest] at h
      · simp only [runBucket, hw, hrest, Option.some.injEq] at h
        subst h
        have := ih rs hrest
        subst this
        simp only [List.map_cons, List.cons.injEq, and_true]
        unfold hashWorker at hw
        rcases hfs : fs p with _ | contents
        · simp [hfs] at hw
        · simp only [hfs] at hw
          by_cases hz : contents.length = 0
          · simp [hz] at hw
          · simp only [if_neg hz] at hw
            cases hw
            simp [hfs]

/-- **C9**: digest grouping is commutative — collecting the worker records in
any order, or permuting the bucket's input file list, yields the same final
digest-to-paths groups up to set equality. -/
theorem c9_digest_grouping_commutative :
    (∀ recs₁ recs₂ : List Md5ToHash, recs₁.Perm recs₂ → ∀ d : List Nat,
        (groupOf (getHashResults recs₁) d).toFinset =
          (groupOf (getHashResults recs₂) d).toFinset) ∧
    (∀ (fs : String → Option (List Nat)) (files₁ files₂ : List String)
        (recs₁ recs₂ : List Md5ToHash), files₁.Perm files₂ →
        runBucket fs files₁ = some recs₁ → runBucket fs files₂ = some recs₂ →
        ∀ d : List Nat,
          (groupOf (getHashResults recs₁) d).toFinset =
            (groupOf (getHashResults recs₂) d).toFinset) := by
  have base : ∀ recs₁ recs₂ : List Md5ToHash, recs₁.Perm recs₂ → ∀ d : List Nat,
      (groupOf (getHashResults recs₁) d).toFinset =
        (groupOf (getHashResults recs₂) d).toFinset := by
    intro recs₁ recs₂ hperm d
    rw [groupOf_getHashResults, groupOf_getHashResults]
    exact List.toFinset_eq_of_perm _ _ ((hperm.filter _).map _)
  refine ⟨base, ?_⟩
  intro fs files₁ files₂ recs₁ recs₂ hperm h₁ h₂ d
  rw [runBucket_eq_map fs files₁ recs₁ h₁, runBucket_eq_map fs files₂ recs₂ h₂]
  exact base _ _ (hperm.map _) d

/-- Witness for C9 at a concrete permutation: two records received in either
order, and a two-file bucket hashed in either order, group identically. -/
theorem c9_witness :
    (groupOf (getHashResults [⟨"a", [1, 2], none⟩, ⟨"b", [1, 2], none⟩]) [1, 2]).toFinset =
        (groupOf (getHashResults [⟨"b", [1, 2], none⟩, ⟨"a", [1, 2], none⟩]) [1, 2]).toFinset ∧
      (groupOf (getHashResults [⟨"a", sampleBuf [5], none⟩, ⟨"b", sampleBuf [5], none⟩])
            (sampleBuf [5])).toFinset =
        (groupOf (getHashResults [⟨"b", sampleBuf [5], none⟩, ⟨"a", sampleBuf [5], none⟩])
            (sampleBuf [5])).toFinset :=
  ⟨c9_digest_grouping_commutative.1 _ _ (List.Perm.swap' _ _ (List.Perm.refl [])) [1, 2],
    c9_digest_grouping_commutative.2
      (fun p => if p = "a" ∨ p = "b" then some [5] else none) ["a", "b"] ["b", "a"] _ _
      (List.Perm.swap' _ _ (List.Perm.refl [])) rfl rfl (sampleBuf [5])⟩

/-- **C1, counterexample**: a bucket containing one unreadable file and two
identical readable ones.  The claim says the open failure is recorded as an
error result for that one file only and the other files are still grouped;
in v0.4.3 `hashWorker` calls `log.Fatal` instead (no error record is ever
delivered), the run aborts, and nothing in the bucket is grouped. -/
theorem c1_counterexample :
    hashWorker (fun p => if p = "good1" ∨ p = "good2" then some [1, 2] else none)
        "bad" = .fatal ∧
      runBucket (fun p => if p = "good1" ∨ p = "good2" then some [1, 2] else none)
        ["bad", "good1", "good2"] = none := ⟨rfl, rfl⟩

/-- **C1, amended**: an open/read failure in `hashWorker` is fatal to the
entire run (`log.Fatal`, main.go lines 422-433): if any file of the bucket
fails, no grouping happens at all.  The collector `getHashResults` does still
carry the earlier versions' recovery branch — a record with a non-nil error
would be excluded from grouping while the rest of the bucket is grouped — but
v0.4.3 workers never deliver such a record. -/
theorem c1_fatal_aborts_run :
    (∀ (fs : String → Option (List Nat)) (files : List String),
        (∃ p ∈ files, hashWorker fs p = .fatal) → runBucket fs files = none) ∧
    (∀ (recs : List Md5ToHash) (d : List Nat),
        groupOf (getHashResults recs) d =
          (recs.filter (fun r => r.err.isNone && r.md5 == d)).map (·.path)) := by
  constructor
  · intro fs files h
    induction files with
    | nil => simp at h
    | cons p ps ih =>
      rcases h with ⟨q, hq, hfatal⟩
      rcases List.mem_cons.mp hq with rfl | hmem
      · simp [runBucket, hfatal]
      · rcases hw : hashWorker fs p with _ | r
        · simp [runBucket, hw]
        · simp [runBucket, hw, ih ⟨q, hmem, hfatal⟩]
  · exact groupOf_getHashResults

/-- Witness for C1's amended theorem at a concrete input: one unreadable file
aborts a three-file bucket, and the collector's (dead) recovery branch drops
an error record from grouping while keeping the good ones. -/
theorem c1_witness :
    runBucket (fun p => if p = "good1" ∨ p = "good2" then some [1, 2] else none)
        ["good1", "bad", "good2"] = none ∧
      groupOf (getHashResults
          [⟨"good1", [9], none⟩, ⟨"bad", [], some "io"⟩, ⟨"good2", [9], none⟩]) [9] =
        ["good1", "good2"] :=
  ⟨c1_fatal_aborts_run.1 _ _ ⟨"bad", by decide, rfl⟩,
    by rw [c1_fatal_aborts_run.2]; rfl⟩

/-- **C8, counterexample**: two zero-length files of equal size (0 < 1024)
have identical contents, yet no digest is assigned at all — `f.Read` on an
empty file returns `(0, io.EOF)` and `hashWorker` hits `log.Fatalf`,
aborting the run instead of grouping them. -/
theorem c8_counterexample :
    (fun p => if p = "e1" ∨ p = "e2" then some ([] : List Nat) else none) "e1" =
        some ([] : List Nat) ∧
      hashWorker (fun p => if p = "e1" ∨ p = "e2" then some ([] : List Nat) else none)
        "e1" = .fatal ∧
      runBucket (fun p => if p = "e1" ∨ p = "e2" then some ([] : List Nat) else none)
        ["e1", "e2"] = none := ⟨rfl, rfl, rfl⟩

/-- **C8, amended**: for two files of equal *positive* size smaller than the
fixed 1024-byte sample, the zero padding of the read buffer is identical on
both sides, so the digest comparison is decided exactly by the files' full
contents: both workers deliver a record, and the records' digests agree iff
the entire contents agree — bytes beyond the files' length have no influence. -/
theorem c8_short_files_digest_iff_equal (fs : String → Option (List Nat))
    (p₁ p₂ : String) (c₁ c₂ : List Nat)
    (h₁ : fs p₁ = some c₁) (h₂ : fs p₂ = some c₂)
    (hlen : c₁.length = c₂.length) (hpos : 0 < c₁.length)
    (hlt : c₁.length < sampleSize) :
    ∃ r₁ r₂ : Md5ToHash, hashWorker fs p₁ = .sent r₁ ∧ hashWorker fs p₂ = .sent r₂ ∧
      (r₁.md5 = r₂.md5 ↔ c₁ = c₂) := by
  have hz₁ : c₁.length ≠ 0 := Nat.pos_iff_ne_zero.mp hpos
  have hz₂ : c₂.length ≠ 0 := by omega
  refine ⟨⟨p₁, md5sum (sampleBuf c₁), none⟩, ⟨p₂, md5sum (sampleBuf c₂), none⟩,
    by simp [hashWorker, h₁, hz₁], by simp [hashWorker, h₂, hz₂], ?_⟩
  simp only [md5sum, sampleBuf]
  rw [List.take_of_length_le (Nat.le_of_lt hlt),
    List.take_of_length_le (by omega : c₂.length ≤ sampleSize), hlen]
  constructor
  · exact fun h => List.append_cancel_right h
  · intro h; rw [h]

/-- Witness for C8's amended theorem: two one-byte files, equal contents iff
equal digests, evaluated concretely. -/
theorem c8_witness :
    ∃ r₁ r₂ : Md5ToHash,
      hashWorker (fun p => if p = "f1" then some [3] else
          if p = "f2" then some [3] else none) "f1" = .sent r₁ ∧
      hashWorker (fun p => if p = "f1" then some [3] else
          if p = "f2" then some [3] else none) "f2" = .sent r₂ ∧
      (r₁.md5 = r₂.md5 ↔ ([3] : List Nat) = [3]) :=
  c8_short_files_digest_iff_equal _ "f1" "f2" [3] [3] rfl rfl rfl
    (by decide) (by decide)

/-! ## Helper lemmas: the interactive input loop -/

/-- `scanValid` is exactly the behaviour of iterating `readInt` until it
returns a non-zero value: a `readInt` result of `0` (the user typed `0`) makes
the outer loop call `readInt` again on the remaining input, everything else is
returned as is. -/
theorem scanValid_iterates_readInt (max : Nat) (stdin : List StdinTok) :
    (readInt max stdin = none → scanValid max stdin = none) ∧
      ∀ k rest, readInt max stdin = some (k, rest) →
        (k = 0 → scanValid max stdin = scanValid max rest) ∧
          (k ≠ 0 → scanValid max stdin = some (k, rest)) := by
  induction stdin with
  | nil => simp [readInt, scanValid]
  | cons tok rest ih =>
    rcases tok with _ | i
    · simpa [readInt, scanValid] using ih
    · by_cases h0 : i = 0
      · subst h0
        refine ⟨by simp [readInt], ?_⟩
        intro k r hr
        simp only [readInt, if_pos rfl, Option.some.injEq, Prod.mk.injEq] at hr
        obtain ⟨rfl, rfl⟩ := hr
        simp [scanValid]
      · by_cases hin : 1 ≤ i ∧ i ≤ (max : Int)
        · refine ⟨by simp [readInt, if_neg h0, if_pos hin], ?_⟩
          intro k r hr
          simp only [readInt, if_neg h0, if_pos hin, Option.some.injEq,
            Prod.mk.injEq] at hr
          obtain ⟨rfl, rfl⟩ := hr
          exact ⟨fun h => absurd h h0, fun _ => by simp [scanValid, if_pos hin]⟩
        · simpa [readInt, scanValid, if_neg h0, if_neg hin] using ih

/-- Any value `scanValid` accepts lies in `[1, max]`. -/
theorem scanValid_bounds (max : Nat) (stdin : List StdinTok) (k : Int)
    (rest : List StdinTok) (h : scanValid max stdin = some (k, rest)) :
    1 ≤ k ∧ k ≤ (max : Int) := by
  induction stdin with
  | nil => simp [scanValid] at h
  | cons tok tl ih =>
    rcases tok with _ | i
    · exact ih (by simpa [scanValid] using h)
    · by_cases hin : 1 ≤ i ∧ i ≤ (max : Int)
      · simp only [scanValid, if_pos hin, Option.some.injEq, Prod.mk.injEq] at h
        obtain ⟨rfl, -⟩ := h
        exact hin
      · exact ih (by simpa [scanValid, if_neg hin] using h)

/-- Any value `cleanUp`'s input loop ends with lies in `[1, n]`. -/
theorem promptLoop_bounds (n : Nat) (keep k : Int) (stdin rest : List StdinTok)
    (h : promptLoop n keep stdin = some (k, rest)) : 1 ≤ k ∧ k ≤ (n : Int) := by
  unfold promptLoop at h
  by_cases hk : 1 ≤ keep ∧ keep ≤ (n : Int)
  · simp only [if_pos hk, Option.some.injEq, Prod.mk.injEq] at h
    obtain ⟨rfl, -⟩ := h
    exact hk
  · exact scanValid_bounds n stdin k rest (by simpa [if_neg hk] using h)

/-- Inversion of `resolveSet`: every produced decision is either the
skip-manual skip (with `computeKeep` not having singled out a file) or a kept
index within `[1, n]`; the `keep == 0` branch ("Deletion skipped.") and the
silent fall-through are unreachable. -/
theorem resolveSet_cases (pat : Option (String → Bool)) (skipManual : Bool)
    (files : List String) (stdin : List StdinTok) (d : Decision)
    (rest : List StdinTok)
    (h : resolveSet pat skipManual files stdin = some (d, rest)) :
    (d = .skippedPreferred ∧ skipManual = true ∧ computeKeep pat files < 1) ∨
      ∃ k : Nat, d = .keepIdx k ∧ 1 ≤ k ∧ k ≤ files.length := by
  unfold resolveSet at h
  by_cases hskip : computeKeep pat files < 1 ∧ skipManual = true
  · left
    simp only [if_pos hskip, Option.some.injEq, Prod.mk.injEq] at h
    exact ⟨h.1.symm, hskip.2, hskip.1⟩
  · right
    simp only [if_neg hskip] at h
    rcases hp : promptLoop files.length (computeKeep pat files) stdin with _ | ⟨k, r⟩
    · simp [hp] at h
    · have hb := promptLoop_bounds files.length (computeKeep pat files) k stdin r hp
      simp only [hp] at h
      have hk0 : ¬ k = 0 := by omega
      have hkpos : k > 0 := by omega
      simp only [if_neg hk0, if_pos hkpos, Option.some.injEq, Prod.mk.injEq] at h
      refine ⟨k.toNat, h.1.symm, ?_, ?_⟩ <;> omega

/-- Decomposition of a duplicate set around the kept member: for a 1-based
index `k` within bounds, the set splits as the deleted prefix, the kept file,
and the deleted suffix. -/
theorem files_split_at_keep (files : List String) (k : Nat) (h1 : 1 ≤ k)
    (h2 : k ≤ files.length) :
    ∃ kept : String, files.get? (k - 1) = some kept ∧
      files = files.take (k - 1) ++ kept :: files.drop k := by
  have hlt : k - 1 < files.length := by omega
  refine ⟨files.get ⟨k - 1, hlt⟩, by simp [List.get?_eq_get hlt], ?_⟩
  conv_lhs => rw [← List.take_append_drop (k - 1) files]
  rw [List.drop_eq_getElem_cons hlt]
  have : k - 1 + 1 = k := by omega
  simp [this]

/-- **C2**: whenever `cleanUp` executes a deletion for a duplicate set (the
decision is `keepIdx k`), the kept member and the deleted members
(`deleteOtherFiles`) partition the full member set: their union is the whole
set, they are disjoint, the keep-set is the non-empty singleton of the kept
member, and the delete-set never equals the full duplicate set — so the
"delete every copy" situation the safety invariant guards against cannot
arise, making that invariant hold (vacuously). -/
theorem c2_keep_delete_partition (pat : Option (String → Bool)) (skipManual : Bool)
    (files : List String) (stdin rest : List StdinTok) (k : Nat)
    (hres : resolveSet pat skipManual files stdin = some (.keepIdx k, rest))
    (hnd : files.Nodup) :
    ∃ kept : String, files.get? (k - 1) = some kept ∧
      (∀ f, f ∈ files ↔ f = kept ∨ f ∈ deleteOtherFiles files k) ∧
      kept ∉ deleteOtherFiles files k ∧
      (∃ f ∈ files, f ∉ deleteOtherFiles files k) := by
  rcases resolveSet_cases pat skipManual files stdin _ rest hres with
    ⟨hd, -, -⟩ | ⟨k', hd, h1, h2⟩
  · exact absurd hd (by simp)
  · obtain ⟨rfl⟩ : k = k' := by cases hd; rfl
    obtain ⟨kept, hget, hsplit⟩ := files_split_at_keep files k h1 h2
    have hdel : deleteOtherFiles files k = files.take (k - 1) ++ files.drop k := rfl
    have hmem : ∀ f, f ∈ files ↔ f = kept ∨ f ∈ deleteOtherFiles files k := by
      intro f
      conv_lhs => rw [hsplit]
      simp only [hdel, List.mem_append, List.mem_cons]
      tauto
    have hnotmem : kept ∉ deleteOtherFiles files k := by
      have hnd' := hnd
      rw [hsplit, List.nodup_append] at hnd'
      obtain ⟨-, hcons, hdisj⟩ := hnd'
      rw [List.nodup_cons] at hcons
      intro hmem'
      rw [hdel, List.mem_append] at hmem'
      rcases hmem' with htake | hdrop
      · exact hdisj htake (List.mem_cons_self kept _)
      · exact hcons.1 hdrop
    refine ⟨kept, hget, hmem, hnotmem, kept, ?_, hnotmem⟩
    rw [hsplit]
    simp

/-- Witness for C2 at a concrete run: three distinct files, no prefer
pattern, stdin selects member 2; the kept file and the deleted pair
partition the set. -/
theorem c2_witness :
    ∃ kept : String, (["a", "b", "c"] : List String).get? (2 - 1) = some kept ∧
      (∀ f, f ∈ (["a", "b", "c"] : List String) ↔
        f = kept ∨ f ∈ deleteOtherFiles ["a", "b", "c"] 2) ∧
      kept ∉ deleteOtherFiles ["a", "b", "c"] 2 ∧
      (∃ f ∈ (["a", "b", "c"] : List String), f ∉ deleteOtherFiles ["a", "b", "c"] 2) :=
  c2_keep_delete_partition none false ["a", "b", "c"] [some 2] [] 2 rfl (by decide)

/-- **C10**: once the interactive prompt for a duplicate set is reached, the
input loop rejects every answer outside `[1, member count]` — including `0` —
so a prompted set can never be skipped: the decision is never the
`keep == 0` "Deletion skipped." branch (it is unreachable, as is the silent
`keep < 0` fall-through), any executed decision keeps exactly one member and
deletes the other `n - 1`, and the only skip `resolveSet` can produce is the
skip-manual branch taken before prompting. -/
theorem c10_prompt_cannot_be_skipped (pat : Option (String → Bool))
    (skipManual : Bool) (files : List String) (stdin : List StdinTok)
    (d : Decision) (rest : List StdinTok)
    (h : resolveSet pat skipManual files stdin = some (d, rest)) :
    d ≠ .skippedZero ∧ d ≠ .noAction ∧
      (∀ k, d = .keepIdx k → 1 ≤ k ∧ k ≤ files.length ∧
        (deleteOtherFiles files k).length = files.length - 1) ∧
      (d = .skippedPreferred → skipManual = true ∧ computeKeep pat files < 1) ∧
      (∀ (i : Int) (rest' : List StdinTok), ¬(1 ≤ i ∧ i ≤ (files.length : Int)) →
        scanValid files.length (some i :: rest') = scanValid files.length rest') := by
  have hcases := resolveSet_cases pat skipManual files stdin d rest h
  refine ⟨?_, ?_, ?_, ?_, ?_⟩
  · rcases hcases with ⟨rfl, -, -⟩ | ⟨k, rfl, -, -⟩ <;> simp
  · rcases hcases with ⟨rfl, -, -⟩ | ⟨k, rfl, -, -⟩ <;> simp
  · intro k hk
    rcases hcases with ⟨rfl, -, -⟩ | ⟨k', rfl, h1, h2⟩
    · exact absurd hk (by simp)
    · obtain ⟨rfl⟩ : k = k' := by cases hk; rfl
      refine ⟨h1, h2, ?_⟩
      simp only [deleteOtherFiles, List.length_append, List.length_take,
        List.length_drop]
      omega
  · intro hd
    rcases hcases with ⟨-, hsm, hck⟩ | ⟨k, rfl, -, -⟩
    · exact ⟨hsm, hck⟩
    · exact absurd hd (by simp)
  · intro i rest' hout
    simp [scanValid, if_neg hout]

/-- Witness for C10 at a concrete run: the prompt swallows `0`, an
out-of-range `5`, and a parse error before accepting `3`; the decision keeps
exactly one of the three members. -/
theorem c10_witness :
    (Decision.keepIdx 3 ≠ .skippedZero ∧ Decision.keepIdx 3 ≠ .noAction ∧
      (∀ k, Decision.keepIdx 3 = .keepIdx k → 1 ≤ k ∧ k ≤ (["a", "b", "c"] : List String).length ∧
        (deleteOtherFiles ["a", "b", "c"] k).length = (["a", "b", "c"] : List String).length - 1) ∧
      (Decision.keepIdx 3 = .skippedPreferred →
        false = true ∧ computeKeep none ["a", "b", "c"] < 1) ∧
      (∀ (i : Int) (rest' : List StdinTok),
        ¬(1 ≤ i ∧ i ≤ ((["a", "b", "c"] : List String).length : Int)) →
        scanValid (["a", "b", "c"] : List String).length (some i :: rest') =
          scanValid (["a", "b", "c"] : List String).length rest')) :=
  c10_prompt_cannot_be_skipped none false ["a", "b", "c"]
    [some 0, some 5, none, some 3] (.keepIdx 3) [] rfl

/-- The prefer-scan never moves off a non-matching file: processing any run of
non-matching files leaves `keep` unchanged. -/
theorem computeKeepStep_no_match (m : String → Bool) (keep : Int) (j : Nat)
    (g : String) (hg : m g = false) :
    computeKeepStep (some m) keep (j, g) = keep := by
  unfold computeKeepStep
  by_cases hk : keep < 0 <;> simp [hk, hg]

theorem computeKeep_foldl_no_match (m : String → Bool) (l : List String) (j : Nat)
    (keep : Int) (h : ∀ g ∈ l, m g = false) :
    (l.enumFrom j).foldl (computeKeepStep (some m)) keep = keep := by
  induction l generalizing j with
  | nil => rfl
  | cons g gs ih =>
    have hg : m g = false := h g (List.mem_cons_self g gs)
    simp only [List.enumFrom, List.foldl_cons,
      computeKeepStep_no_match m keep j g hg]
    exact ih (j + 1) (fun g' hg' => h g' (List.mem_cons_of_mem g hg'))

/-- When exactly one member matches the prefer pattern, the prefer-scan ends
on its 1-based index. -/
theorem computeKeep_unique_match (m : String → Bool) (pre post : List String)
    (f : String) (hpre : ∀ g ∈ pre, m g = false) (hf : m f = true)
    (hpost : ∀ g ∈ post, m g = false) :
    computeKeep (some m) (pre ++ f :: post) = (pre.length : Int) + 1 := by
  unfold computeKeep
  rw [show (pre ++ f :: post).enum = (pre ++ f :: post).enumFrom 0 from rfl,
    List.enumFrom_append, List.foldl_append]
  rw [computeKeep_foldl_no_match m pre 0 0 hpre]
  have hstep : computeKeepStep (some m) 0 (0 + pre.length, f) =
      (pre.length : Int) + 1 := by
    unfold computeKeepStep
    simp [hf]
  simp only [List.enumFrom, List.foldl_cons, hstep]
  exact computeKeep_foldl_no_match m post (0 + pre.length + 1) _ hpost

/-- **C4, counterexample**: with prefer pattern matching `a1` and `a2` (but
not `b`) and no skip-manual, the prefer-scan is poisoned to `-1` ("We found
more than one preferred file here..."), the interactive prompt covers *all*
members, and answering `3` deletes both pattern-matching members — so
matching members do enter the deletion decision, are offered interactively,
and are deleted, contradicting the claim. -/
theorem c4_counterexample :
    (fun s => s == "a1" || s == "a2") "a1" = true ∧
      (fun s => s == "a1" || s == "a2") "a2" = true ∧
      computeKeep (some (fun s => s == "a1" || s == "a2")) ["a1", "a2", "b"] = -1 ∧
      resolveSet (some (fun s => s == "a1" || s == "a2")) false ["a1", "a2", "b"]
        [some 3] = some (.keepIdx 3, []) ∧
      deleteOtherFiles ["a1", "a2", "b"] 3 = ["a1", "a2"] :=
  ⟨rfl, rfl, rfl, rfl, rfl⟩

/-- **C4, amended**: only when *exactly one* member matches the prefer
pattern is it automatically kept: the decision is made without consuming any
interactive input (stdin is returned untouched), the unique matching member
is kept, and exactly the non-matching members are deleted.  With zero or
several matching members no automatic keep occurs; all members — matching
ones included — are numbered and offered to the prompt (see the
counterexample). -/
theorem c4_unique_match_auto_kept (m : String → Bool) (pre post : List String)
    (f : String) (skipManual : Bool) (stdin : List StdinTok)
    (hpre : ∀ g ∈ pre, m g = false) (hf : m f = true)
    (hpost : ∀ g ∈ post, m g = false) :
    resolveSet (some m) skipManual (pre ++ f :: post) stdin =
        some (.keepIdx (pre.length + 1), stdin) ∧
      deleteOtherFiles (pre ++ f :: post) (pre.length + 1) = pre ++ post := by
  have hck := computeKeep_unique_match m pre post f hpre hf hpost
  have hlen : (pre ++ f :: post).length = pre.length + 1 + post.length := by
    simp [List.length_append]
    omega
  constructor
  · unfold resolveSet
    rw [hck]
    have h1 : ¬((pre.length : Int) + 1 < 1 ∧ skipManual = true) := by
      rintro ⟨h, -⟩
      omega
    rw [if_neg h1]
    have h2 : promptLoop (pre ++ f :: post).length ((pre.length : Int) + 1) stdin =
        some ((pre.length : Int) + 1, stdin) := by
      unfold promptLoop
      rw [if_pos]
      rw [hlen]
      constructor <;> omega
    rw [h2]
    have h3 : ¬((pre.length : Int) + 1 = 0) := by omega
    have h4 : (pre.length : Int) + 1 > 0 := by omega
    dsimp only
    rw [if_neg h3, if_pos h4]
    have h5 : ((pre.length : Int) + 1).toNat = pre.length + 1 := by omega
    rw [h5]
  · unfold deleteOtherFiles
    have htake : (pre ++ f :: post).take (pre.length + 1 - 1) = pre := by
      simp
    have hdrop : (pre ++ f :: post).drop (pre.length + 1) = post := by
      rw [show pre.length + 1 = pre.length + 1 from rfl, List.drop_append]
      simp
    rw [htake, hdrop]

/-- Witness for C4's amended theorem: three files of which exactly the middle
one matches; it is kept with no input consumed and the other two deleted. -/
theorem c4_witness :
    resolveSet (some (fun s => s == "keep")) false (["x"] ++ "keep" :: ["y"])
        [some 1] = some (.keepIdx (["x"].length + 1), [some 1]) ∧
      deleteOtherFiles (["x"] ++ "keep" :: ["y"]) (["x"].length + 1) = ["x"] ++ ["y"] :=
  c4_unique_match_auto_kept (fun s => s == "keep") ["x"] ["y"] "keep" false [some 1]
    (by decide) (by decide) (by decide)

/-! ## Helper lemmas: the selection parser -/

theorem insertUnique_mem (n a : Nat) (l : List Nat) :
    a ∈ insertUnique n l ↔ a = n ∨ a ∈ l := by
  induction l with
  | nil => simp [insertUnique]
  | cons m rest ih =>
    unfold insertUnique
    by_cases h1 : n = m
    · subst h1
      rw [if_pos rfl]
      simp only [List.mem_cons]
      tauto
    · rw [if_neg h1]
      by_cases h2 : n < m
      · rw [if_pos h2]
        simp [List.mem_cons]
      · rw [if_neg h2]
        simp only [List.mem_cons, ih]
        tauto

theorem insertUnique_sorted (n : Nat) (l : List Nat) (h : l.Sorted (· < ·)) :
    (insertUnique n l).Sorted (· < ·) := by
  induction l with
  | nil => simp [insertUnique]
  | cons m rest ih =>
    rw [List.sorted_cons] at h
    obtain ⟨hm, hrest⟩ := h
    unfold insertUnique
    by_cases h1 : n = m
    · subst h1
      rw [if_pos rfl, List.sorted_cons]
      exact ⟨hm, hrest⟩
    · rw [if_neg h1]
      by_cases h2 : n < m
      · rw [if_pos h2, List.sorted_cons]
        refine ⟨?_, ?_⟩
        · intro b hb
          rcases List.mem_cons.mp hb with rfl | hb'
          · exact h2
          · exact Nat.lt_trans h2 (hm b hb')
        · rw [List.sorted_cons]
          exact ⟨hm, hrest⟩
      · rw [if_neg h2, List.sorted_cons]
        refine ⟨?_, ih hrest⟩
        intro b hb
        rcases (insertUnique_mem n b rest).mp hb with rfl | hb'
        · omega
        · exact hm b hb'

theorem uniqueInts_foldl_sorted (l : List Nat) (acc : List Nat)
    (h : acc.Sorted (· < ·)) :
    (l.foldl (fun acc n => insertUnique n acc) acc).Sorted (· < ·) := by
  induction l generalizing acc with
  | nil => exact h
  | cons n rest ih => exact ih _ (insertUnique_sorted n acc h)

theorem uniqueInts_foldl_mem (l : List Nat) (acc : List Nat) (a : Nat) :
    a ∈ l.foldl (fun acc n => insertUnique n acc) acc ↔ a ∈ acc ∨ a ∈ l := by
  induction l generalizing acc with
  | nil => simp
  | cons n rest ih =>
    simp only [List.foldl_cons, ih, insertUnique_mem, List.mem_cons]
    tauto

/-- `uniqueInts` sorts strictly (so also de-duplicates). -/
theorem uniqueInts_sorted (l : List Nat) : (uniqueInts l).Sorted (· < ·) :=
  uniqueInts_foldl_sorted l [] (by simp)

/-- `uniqueInts` preserves the set of values. -/
theorem uniqueInts_mem (l : List Nat) (a : Nat) : a ∈ uniqueInts l ↔ a ∈ l := by
  simpa using uniqueInts_foldl_mem l [] a

/-- Every index a token contributes lies in `[1, max]`. -/
theorem parseToken_bounds (max : Nat) (tok : List Char) (l : List Nat)
    (h : parseToken max tok = some l) : ∀ i ∈ l, 1 ≤ i ∧ i ≤ max := by
  unfold parseToken at h
  rcases hs : splitOnChar '-' tok with _ | ⟨a, _ | ⟨b, _ | ⟨c, tl⟩⟩⟩ <;>
    rw [hs] at h <;> dsimp only at h
  · simp at h
  · rcases hn : parseNat? a with _ | n <;> rw [hn] at h <;> (try dsimp only at h)
    · simp at h
    · by_cases hin : 1 ≤ n ∧ n ≤ max
      · rw [if_pos hin] at h
        cases h
        intro i hi
        rcases List.mem_singleton.mp hi with rfl
        exact hin
      · rw [if_neg hin] at h
        simp at h
  · rcases hlo : parseNat? a with _ | lo <;> rw [hlo] at h <;> (try dsimp only at h)
    · simp at h
    · rcases hhi : parseNat? b with _ | hi <;> rw [hhi] at h <;> (try dsimp only at h)
      · simp at h
      · by_cases hin : 1 ≤ lo ∧ lo ≤ hi ∧ hi ≤ max
        · rw [if_pos hin] at h
          cases h
          intro i hi'
          rw [List.mem_range'_1] at hi'
          omega
        · rw [if_neg hin] at h
          simp at h
  · simp at h

/-- Every index any token of an accepted line contributes lies in `[1, max]`. -/
theorem parseTokens_bounds (max : Nat) (ts : List (List Char))
    (ls : List (List Nat)) (h : parseTokens max ts = some ls) :
    ∀ l ∈ ls, ∀ i ∈ l, 1 ≤ i ∧ i ≤ max := by
  induction ts generalizing ls with
  | nil =>
    simp only [parseTokens, Option.some.injEq] at h
    subst h
    simp
  | cons t ts' ih =>
    unfold parseTokens at h
    rcases ht : parseToken max t with _ | l₁ <;> rw [ht] at h
    · simp at h
    · rcases hts : parseTokens max ts' with _ | ls' <;> rw [hts] at h
      · simp at h
      · cases h
        intro l hl
        rcases List.mem_cons.mp hl with rfl | hl'
        · exact parseToken_bounds max t l ht
        · exact ih ls' hts l hl'

/-- **C3**: the interactive multi-selection prompt (modelled from the spec;
only `Test_parseRead`/`Test_uniqueInts` exist under `src/`).  The model
reproduces every test vector; an accepted line yields a strictly sorted
(hence de-duplicated) keep set of indices within `[1, max]`, and exactly the
unnamed in-range indices are deleted; the prompt loop treats an empty input
as keep-all/skip, repeats on any rejected line, and commits an accepted
line's keep set. -/
theorem c3_selection_parser_spec :
    (parseRead "1" 2 = some [1] ∧
      parseRead "2 3 4" 7 = some [2, 3, 4] ∧
      parseRead "2 4 3" 7 = some [2, 3, 4] ∧
      parseRead "2-5" 7 = some [2, 3, 4, 5] ∧
      parseRead "2-5 7" 7 = some [2, 3, 4, 5, 7] ∧
      parseRead "7 2-5 3" 7 = some [2, 3, 4, 5, 7] ∧
      parseRead "" 2 = none ∧
      parseRead "0-5" 7 = none ∧
      parseRead "5-4" 7 = none ∧
      uniqueInts [1, 1, 2, 3, 2] = [1, 2, 3]) ∧
    (∀ (s : String) (max : Nat) (ks : List Nat), parseRead s max = some ks →
      ks.Sorted (· < ·) ∧ (∀ i ∈ ks, 1 ≤ i ∧ i ≤ max) ∧
      (∀ i, 1 ≤ i → i ≤ max → (i ∈ deletedIndices max ks ↔ i ∉ ks))) ∧
    (∀ (max : Nat) (rest : List String),
      readKeepSet max ("" :: rest) = some .keepAll) ∧
    (∀ (max : Nat) (line : String) (rest : List String), line ≠ "" →
      parseRead line max = none →
      readKeepSet max (line :: rest) = readKeepSet max rest) ∧
    (∀ (max : Nat) (line : String) (rest : List String) (ks : List Nat),
      line ≠ "" → parseRead line max = some ks →
      readKeepSet max (line :: rest) = some (.keep ks)) := by
  refine ⟨⟨rfl, rfl, rfl, rfl, rfl, rfl, rfl, rfl, rfl, rfl⟩, ?_, ?_, ?_, ?_⟩
  · intro s max ks h
    unfold parseRead at h
    by_cases he : ((splitOnChar ' ' s.data).filter (· ≠ [])).isEmpty
    · rw [if_pos he] at h
      simp at h
    · rw [if_neg he] at h
      rcases ht : parseTokens max ((splitOnChar ' ' s.data).filter (· ≠ []))
        with _ | parts <;> rw [ht] at h
      · simp at h
      · simp only [Option.some.injEq] at h
        subst h
        refine ⟨uniqueInts_sorted _, ?_, ?_⟩
        · intro i hi
          rw [uniqueInts_mem] at hi
          rcases List.mem_flatten.mp hi with ⟨l, hl, hil⟩
          exact parseTokens_bounds max _ parts ht l hl i hil
        · intro i h1 h2
          simp only [deletedIndices, List.mem_filter, List.mem_range'_1,
            decide_eq_true_eq]
          constructor
          · exact fun h => h.2
          · exact fun h => ⟨by omega, h⟩
  · intro max rest
    simp [readKeepSet]
  · intro max line rest hne hnone
    simp [readKeepSet, if_neg hne, hnone]
  · intro max line rest ks hne hsome
    simp [readKeepSet, if_neg hne, hsome]

/-- Witness for C3 at a concrete accepted line: `"2-5 7"` with `max = 7`
yields the sorted in-range keep set `{2,3,4,5,7}` and deletes exactly the
complement. -/
theorem c3_witness :
    (List.Sorted (· < ·) [2, 3, 4, 5, 7] ∧
      (∀ i ∈ ([2, 3, 4, 5, 7] : List Nat), 1 ≤ i ∧ i ≤ 7) ∧
      (∀ i, 1 ≤ i → i ≤ 7 →
        (i ∈ deletedIndices 7 [2, 3, 4, 5, 7] ↔ i ∉ ([2, 3, 4, 5, 7] : List Nat)))) ∧
    readKeepSet 7 ["junk", "2-5 7"] = some (.keep [2, 3, 4, 5, 7]) :=
  ⟨c3_selection_parser_spec.2.1 "2-5 7" 7 [2, 3, 4, 5, 7] rfl,
    by
      rw [c3_selection_parser_spec.2.2.2.1 7 "junk" ["2-5 7"] (by decide) rfl]
      exact c3_selection_parser_spec.2.2.2.2 7 "2-5 7" [] [2, 3, 4, 5, 7]
        (by decide) rfl⟩

/-! ## Helper lemmas: the directory walk -/

mutual
/-- The walk aborts (the visitor panics) exactly when a broken symlink is
reachable: errors of unreadable directories are discarded by the visitor and
never abort. -/
theorem scanTree_error_iff (t : FTree) (pfx : List String) :
    scanTree pfx t = .error () ↔ hasBadlink t = true := by
  cases t with
  | file c => simp [scanTree, hasBadlink]
  | linkAlias => simp [scanTree, hasBadlink]
  | badlink => simp [scanTree, hasBadlink]
  | unreadable => simp [scanTree, hasBadlink]
  | dir es =>
    rw [show scanTree pfx (.dir es) = scanEntries pfx es from rfl,
      show hasBadlink (.dir es) = entriesHasBadlink es from rfl]
    exact scanEntries_error_iff es pfx
/-- Entry-list version of `scanTree_error_iff`. -/
theorem scanEntries_error_iff (es : Entries) (pfx : List String) :
    scanEntries pfx es = .error () ↔ entriesHasBadlink es = true := by
  cases es with
  | nil => simp [scanEntries, entriesHasBadlink]
  | cons nm t rest =>
    rw [show entriesHasBadlink (.cons nm t rest) =
      (hasBadlink t || entriesHasBadlink rest) from rfl]
    unfold scanEntries
    rcases h1 : scanTree (pfx ++ [nm]) t with e | l₁
    · cases e
      simp [(scanTree_error_iff t (pfx ++ [nm])).mp h1]
    · have hbt : hasBadlink t = false := by
        rcases hb : hasBadlink t
        · rfl
        · exact absurd ((scanTree_error_iff t (pfx ++ [nm])).mpr hb) (by simp [h1])
      rcases h2 : scanEntries pfx rest with e | l₂
      · cases e
        simp [h1, h2, hbt, (scanEntries_error_iff rest pfx).mp h2]
      · have hbr : entriesHasBadlink rest = false := by
          rcases hb : entriesHasBadlink rest
          · rfl
          · exact absurd ((scanEntries_error_iff rest pfx).mpr hb) (by simp [h2])
        simp [h1, h2, hbt, hbr]
end

/-- **C6, counterexample**: a root with an unreadable directory `bad` next to
two identical files.  `filepath.Walk` reports the `readDirNames` error for
`bad` to the visitor, but the visitor ignores its `err` argument and returns
`nil`, so the walk silently skips `bad`'s contents and continues: the scan
does *not* abort, no error propagates to `main`, the partial result is used,
and a duplicate report is produced — contradicting every part of the claim
for the unreadable-directory case. -/
theorem c6_counterexample :
    scanTree ["r"] (.dir (.cons "bad" .unreadable (.cons "x" (.file [7, 7, 7])
        (.cons "y" (.file [7, 7, 7]) .nil)))) =
      .ok [(["r", "x"], [7, 7, 7]), (["r", "y"], [7, 7, 7])] ∧
    dupReport "r" (.dir (.cons "bad" .unreadable (.cons "x" (.file [7, 7, 7])
        (.cons "y" (.file [7, 7, 7]) .nil)))) =
      .ok (some [["r/x", "r/y"]]) := ⟨rfl, rfl⟩

/-- **C6, amended**: the run aborts with no partial result and no duplicate
report exactly when the walk reaches a broken symlink (`EvalSymlinks` fails
and the visitor panics).  A directory whose listing fails never aborts: its
error is reported to the visitor, which discards it, so the directory is
silently skipped, the scan continues, and the resulting partial map *is*
used for the duplicate report (see the counterexample). -/
theorem c6_scan_aborts_iff_broken_symlink (root : String) (t : FTree) :
    (scanTree [root] t = .error () ↔ hasBadlink t = true) ∧
      (dupReport root t = .error () ↔ hasBadlink t = true) := by
  refine ⟨scanTree_error_iff t [root], ?_⟩
  unfold dupReport
  rcases h : scanTree [root] t with e | entries
  · cases e
    simp [(scanTree_error_iff t [root]).mp h]
  · have : hasBadlink t = false := by
      rcases hb : hasBadlink t
      · rfl
      · exact absurd ((scanTree_error_iff t [root]).mpr hb) (by simp [h])
    simp [this]

theorem bucketPaths_insertSize_self (m : List (Nat × List String)) (sz : Nat)
    (p : String) : bucketPaths (insertSize m sz p) sz = bucketPaths m sz ++ [p] := by
  induction m with
  | nil => simp [insertSize, bucketPaths]
  | cons hd tl ih =>
    obtain ⟨s, ps⟩ := hd
    by_cases h : s = sz
    · subst h
      simp [insertSize, bucketPaths, List.lookup]
    · simp only [insertSize, if_neg h, bucketPaths, List.lookup,
        beq_false_of_ne (Ne.symm h)] at ih ⊢
      exact ih

theorem bucketPaths_insertSize_ne (m : List (Nat × List String)) (sz sz' : Nat)
    (p : String) (h : sz' ≠ sz) :
    bucketPaths (insertSize m sz p) sz' = bucketPaths m sz' := by
  induction m with
  | nil => simp [insertSize, bucketPaths, List.lookup, beq_false_of_ne h]
  | cons hd tl ih =>
    obtain ⟨s, ps⟩ := hd
    by_cases hs : s = sz
    · subst hs
      simp [insertSize, bucketPaths, List.lookup, beq_false_of_ne h]
    · by_cases hs' : s = sz'
      · subst hs'
        simp [insertSize, if_neg hs, bucketPaths, List.lookup]
      · simp only [insertSize, if_neg hs, bucketPaths, List.lookup,
          beq_false_of_ne (Ne.symm hs')] at ih ⊢
        exact ih

/-- The scanner's size map sends each size to exactly the recorded paths of
that size, in recording order (`getAllFilesizes`, lines 351-355). -/
theorem bucketPaths_foldl (entries : List (List String × List Nat))
    (m : List (Nat × List String)) (sz : Nat) :
    bucketPaths (entries.foldl
        (fun m e => insertSize m e.2.length (flatPath e.1)) m) sz =
      bucketPaths m sz ++
        (entries.filter (fun e => e.2.length == sz)).map (fun e => flatPath e.1) := by
  induction entries generalizing m with
  | nil => simp
  | cons e es ih =>
    simp only [List.foldl_cons, List.filter_cons]
    by_cases hsz : e.2.length = sz
    · simp [hsz, ih, bucketPaths_insertSize_self]
    · simp [beq_false_of_ne hsz, ih,
        bucketPaths_insertSize_ne m e.2.length sz (flatPath e.1) (Ne.symm hsz)]

theorem bucketPaths_sizesOf (entries : List (List String × List Nat)) (sz : Nat) :
    bucketPaths (sizesOf entries) sz =
      (entries.filter (fun e => e.2.length == sz)).map (fun e => flatPath e.1) := by
  simpa [bucketPaths] using bucketPaths_foldl entries [] sz

/-! ## Helper lemmas: flat paths -/

theorem goodName_spec (s : String) (h : goodName s = true) :
    s.data ≠ [] ∧ '/' ∉ s.data := by
  simp only [goodName, Bool.and_eq_true, Bool.not_eq_true', List.isEmpty_eq_false,
    List.all_eq_true, decide_eq_true_eq] at h
  exact ⟨h.1, fun hmem => h.2 '/' hmem rfl⟩

/-- In a separator-joined character list, the part before the first separator
is unique: two slash-free prefixes followed by `/` coincide. -/
theorem sep_split_unique (l₁ : List Char) : ∀ (l₂ m₁ m₂ : List Char),
    '/' ∉ l₁ → '/' ∉ l₂ → l₁ ++ '/' :: m₁ = l₂ ++ '/' :: m₂ →
    l₁ = l₂ ∧ m₁ = m₂ := by
  induction l₁ with
  | nil =>
    intro l₂ m₁ m₂ h₁ h₂ h
    cases l₂ with
    | nil => simpa using h
    | cons b bs =>
      simp only [List.nil_append, List.cons_append, List.cons.injEq] at h
      exact absurd (h.1 ▸ List.mem_cons_self b bs) h₂
  | cons a as ih =>
    intro l₂ m₁ m₂ h₁ h₂ h
    cases l₂ with
    | nil =>
      simp only [List.cons_append, List.nil_append, List.cons.injEq] at h
      exact absurd (h.1 ▸ List.mem_cons_self a as) h₁
    | cons b bs =>
      simp only [List.cons_append, List.cons.injEq] at h
      obtain ⟨rfl, h'⟩ := h
      obtain ⟨heq, hm⟩ := ih bs m₁ m₂ (fun hm => h₁ (List.mem_cons_of_mem a hm))
        (fun hm => h₂ (List.mem_cons_of_mem a hm)) h'
      exact ⟨by rw [heq], hm⟩

theorem flatPath_data_cons (s : String) (r : List String) (hr : r ≠ []) :
    (flatPath (s :: r)).data = s.data ++ '/' :: (flatPath r).data := by
  cases r with
  | nil => exact absurd rfl hr
  | cons b q =>
    show (s ++ "/" ++ flatPath (b :: q)).data = _
    simp [String.data_append]

/-- `filepath.Join` is injective on paths made of legal names: two joined
paths coincide only if their segment lists do. -/
theorem flatPath_inj (l₁ : List String) : ∀ l₂ : List String,
    (∀ s ∈ l₁, goodName s = true) → (∀ s ∈ l₂, goodName s = true) →
    flatPath l₁ = flatPath l₂ → l₁ = l₂ := by
  induction l₁ with
  | nil =>
    intro l₂ h₁ h₂ h
    cases l₂ with
    | nil => rfl
    | cons t q =>
      exfalso
      have hdata : (flatPath ([] : List String)).data = (flatPath (t :: q)).data := by
        rw [h]
      have hgt := goodName_spec t (h₂ t (List.mem_cons_self t q))
      cases q with
      | nil => exact hgt.1 (by simpa [flatPath] using hdata.symm)
      | cons b bs =>
        rw [flatPath_data_cons t (b :: bs) (by simp)] at hdata
        simp [flatPath] at hdata
  | cons s r ih =>
    intro l₂ h₁ h₂ h
    cases l₂ with
    | nil =>
      exfalso
      have hdata : (flatPath (s :: r)).data = (flatPath ([] : List String)).data := by
        rw [h]
      have hgs := goodName_spec s (h₁ s (List.mem_cons_self s r))
      cases r with
      | nil => exact hgs.1 (by simpa [flatPath] using hdata)
      | cons b bs =>
        rw [flatPath_data_cons s (b :: bs) (by simp)] at hdata
        simp [flatPath] at hdata
    | cons t q =>
      have hgs := goodName_spec s (h₁ s (List.mem_cons_self s r))
      have hgt := goodName_spec t (h₂ t (List.mem_cons_self t q))
      have hdata : (flatPath (s :: r)).data = (flatPath (t :: q)).data := by rw [h]
      cases r with
      | nil =>
        cases q with
        | nil =>
          have : s = t := by simpa [flatPath] using h
          rw [this]
        | cons b bs =>
          exfalso
          rw [flatPath_data_cons t (b :: bs) (by simp)] at hdata
          have hsd : s.data = t.data ++ '/' :: (flatPath (b :: bs)).data := by
            simpa [flatPath] using hdata
          exact hgs.2 (hsd ▸ List.mem_append_right t.data
            (List.mem_cons_self '/' _))
      | cons a as =>
        cases q with
        | nil =>
          exfalso
          rw [flatPath_data_cons s (a :: as) (by simp)] at hdata
          have htd : s.data ++ '/' :: (flatPath (a :: as)).data = t.data := by
            simpa [flatPath] using hdata
          exact hgt.2 (htd ▸ List.mem_append_right s.data
            (List.mem_cons_self '/' _))
        | cons b bs =>
          rw [flatPath_data_cons s (a :: as) (by simp),
            flatPath_data_cons t (b :: bs) (by simp)] at hdata
          obtain ⟨hst, hflat⟩ := sep_split_unique s.data t.data _ _ hgs.2 hgt.2 hdata
          have hs_eq : s = t := String.ext hst
          have hr_eq : (a :: as) = (b :: bs) :=
            ih (b :: bs) (fun x hx => h₁ x (List.mem_cons_of_mem s hx))
              (fun x hx => h₂ x (List.mem_cons_of_mem t hx)) (String.ext hflat)
          rw [hs_eq, hr_eq]

mutual
/-- Every path a well-formed subtree records extends the visiting prefix with
legal names, and the recorded paths are pairwise distinct. -/
theorem scanTree_paths (t : FTree) (pfx : List String)
    (l : List (List String × List Nat)) (hwf : FTree.wf t = true)
    (hs : scanTree pfx t = .ok l) :
    (∀ p ∈ l.map (·.1), ∃ suffix, p = pfx ++ suffix ∧
        ∀ s ∈ suffix, goodName s = true) ∧
      (l.map (·.1)).Nodup := by
  cases t with
  | file c =>
    simp only [scanTree, Except.ok.injEq] at hs
    subst hs
    refine ⟨?_, by simp⟩
    intro p hp
    simp only [List.map_cons, List.map_nil, List.mem_singleton] at hp
    exact ⟨[], by simp [hp]⟩
  | linkAlias =>
    simp only [scanTree, Except.ok.injEq] at hs
    subst hs
    simp
  | badlink => simp [scanTree] at hs
  | unreadable =>
    simp only [scanTree, Except.ok.injEq] at hs
    subst hs
    simp
  | dir es =>
    have hes := scanEntries_paths es pfx l (by simpa [FTree.wf] using hwf)
      (by simpa [scanTree] using hs)
    refine ⟨?_, hes.2⟩
    intro p hp
    obtain ⟨nm, suffix, hp_eq, -, hnm, hsuf⟩ := hes.1 p hp
    refine ⟨nm :: suffix, hp_eq, ?_⟩
    intro s hsm
    rcases List.mem_cons.mp hsm with rfl | hsm'
    · exact hnm
    · exact hsuf s hsm'
/-- Entry-list version of `scanTree_paths`: every recorded path starts with
the prefix followed by the name of the entry it came from. -/
theorem scanEntries_paths (es : Entries) (pfx : List String)
    (l : List (List String × List Nat)) (hwf : Entries.wf es = true)
    (hs : scanEntries pfx es = .ok l) :
    (∀ p ∈ l.map (·.1), ∃ nm suffix, p = pfx ++ nm :: suffix ∧
        nm ∈ Entries.names es ∧ goodName nm = true ∧
        ∀ s ∈ suffix, goodName s = true) ∧
      (l.map (·.1)).Nodup := by
  cases es with
  | nil =>
    simp only [scanEntries, Except.ok.injEq] at hs
    subst hs
    simp
  | cons nm t rest =>
    simp only [Entries.wf, Bool.and_eq_true, Bool.not_eq_true'] at hwf
    obtain ⟨⟨⟨hgood, hnotin⟩, hwt⟩, hwrest⟩ := hwf
    unfold scanEntries at hs
    rcases h1 : scanTree (pfx ++ [nm]) t with e | l₁ <;> rw [h1] at hs
    · simp at hs
    · rcases h2 : scanEntries pfx rest with e | l₂ <;> rw [h2] at hs
      · simp at hs
      · simp only [Except.ok.injEq] at hs
        subst hs
        have ht := scanTree_paths t (pfx ++ [nm]) l₁ hwt h1
        have hr := scanEntries_paths rest pfx l₂ hwrest h2
        have hnm_mem : ∀ p ∈ l₁.map (·.1), ∃ suffix, p = pfx ++ nm :: suffix ∧
            ∀ s ∈ suffix, goodName s = true := by
          intro p hp
          obtain ⟨suffix, hp_eq, hsuf⟩ := ht.1 p hp
          exact ⟨suffix, by simpa using hp_eq, hsuf⟩
        constructor
        · intro p hp
          rw [List.map_append, List.mem_append] at hp
          rcases hp with hp₁ | hp₂
          · obtain ⟨suffix, hp_eq, hsuf⟩ := hnm_mem p hp₁
            exact ⟨nm, suffix, hp_eq, List.mem_cons_self nm _, hgood, hsuf⟩
          · obtain ⟨nm₂, suffix, hp_eq, hmem, hg₂, hsuf⟩ := hr.1 p hp₂
            exact ⟨nm₂, suffix, hp_eq, List.mem_cons_of_mem nm hmem, hg₂, hsuf⟩
        · rw [List.map_append, List.nodup_append]
          refine ⟨ht.2, hr.2, ?_⟩
          intro p hp₁ hp₂
          obtain ⟨s₁, he₁, -⟩ := hnm_mem p hp₁
          obtain ⟨nm₂, s₂, he₂, hmem₂, -, -⟩ := hr.1 p hp₂
          rw [he₁] at he₂
          have : nm = nm₂ := by
            have := List.append_cancel_left he₂
            exact (List.cons.inj this).1
          rw [this] at hnotin
          have : (Entries.names rest).contains nm₂ = true := by
            simp [hmem₂]
          rw [this] at hnotin
          exact Bool.false_ne_true hnotin.symm
end

/-- **C7, counterexample**: a root whose entries `a` (a directory holding
`b`) and `a.txt` are listed in `filepath.Walk`'s sorted sibling order
(`"a" < "a.txt"`), both files of size 5.  The walk records `r/a/b` *before*
`r/a.txt` (depth-first), yet `"r/a.txt" < "r/a/b"` lexicographically — so the
size-5 bucket is **not** in lexicographically sorted order. -/
theorem c7_counterexample :
    FTree.wf (.dir (.cons "a" (.dir (.cons "b" (.file [1, 1, 1, 1, 1]) .nil))
        (.cons "a.txt" (.file [2, 2, 2, 2, 2]) .nil))) = true ∧
      pathLt "a" "a.txt" = true ∧
      getAllFilesizes "r" (.dir (.cons "a" (.dir (.cons "b" (.file [1, 1, 1, 1, 1]) .nil))
          (.cons "a.txt" (.file [2, 2, 2, 2, 2]) .nil))) =
        .ok [(5, ["r/a/b", "r/a.txt"])] ∧
      bucketPaths [(5, ["r/a/b", "r/a.txt"])] 5 = ["r/a/b", "r/a.txt"] ∧
      pathLt "r/a.txt" "r/a/b" = true ∧
      lexSorted ["r/a/b", "r/a.txt"] = false := ⟨rfl, rfl, rfl, rfl, rfl, rfl⟩

/-- **C7, amended**: for every scan of a well-formed tree, the scanner's size
map sends each exact byte size to precisely the recorded file paths of that
size, and the paths within each size bucket are pairwise distinct; they appear
in the deterministic depth-first walk order (a pure function of the tree, so
identical across runs on an unchanged tree) — but not, in general, in
lexicographically sorted order (see the counterexample). -/
theorem c7_bucket_contents (root : String) (t : FTree)
    (entries : List (List String × List Nat))
    (hroot : goodName root = true) (hwf : FTree.wf t = true)
    (hscan : scanTree [root] t = .ok entries) :
    (∀ sz, bucketPaths (sizesOf entries) sz =
        (entries.filter (fun e => e.2.length == sz)).map (fun e => flatPath e.1)) ∧
      ∀ sz, (bucketPaths (sizesOf entries) sz).Nodup := by
  refine ⟨fun sz => bucketPaths_sizesOf entries sz, ?_⟩
  have hpaths := scanTree_paths t [root] entries hwf hscan
  have hgood : ∀ p ∈ entries.map (·.1), ∀ s ∈ p, goodName s = true := by
    intro p hp s hs
    obtain ⟨suffix, rfl, hsuf⟩ := hpaths.1 p hp
    rcases List.mem_append.mp hs with h | h
    · rw [List.mem_singleton.mp h]
      exact hroot
    · exact hsuf s h
  have hflatmap : (entries.map (fun e => flatPath e.1)).Nodup := by
    have : entries.map (fun e => flatPath e.1) =
        (entries.map (·.1)).map flatPath := by
      simp [List.map_map]
    rw [this]
    refine List.Nodup.map_on ?_ hpaths.2
    intro x hx y hy hxy
    exact flatPath_inj x y (hgood x hx) (hgood y hy) hxy
  intro sz
  rw [bucketPaths_sizesOf]
  have hsub : List.Sublist ((entries.filter (fun e => e.2.length == sz)).map
      (fun e => flatPath e.1)) (entries.map (fun e => flatPath e.1)) :=
    (List.filter_sublist entries).map _
  exact hflatmap.sublist hsub

/-- Witness for C7's amended theorem: a two-file root; the size-1 bucket
holds exactly the two recorded paths, distinct, in walk order. -/
theorem c7_witness :
    bucketPaths (sizesOf [(["r", "a"], [9]), (["r", "b"], [9])]) 1 = ["r/a", "r/b"] ∧
      (bucketPaths (sizesOf [(["r", "a"], [9]), (["r", "b"], [9])]) 1).Nodup :=
  ⟨((c7_bucket_contents "r" (.dir (.cons "a" (.file [9]) (.cons "b" (.file [9]) .nil)))
        [(["r", "a"], [9]), (["r", "b"], [9])] rfl rfl rfl).1 1).trans rfl,
    (c7_bucket_contents "r" (.dir (.cons "a" (.file [9]) (.cons "b" (.file [9]) .nil)))
        [(["r", "a"], [9]), (["r", "b"], [9])] rfl rfl rfl).2 1⟩

/-! ## C5: the fs-limit throttle -/

/-- **C5**: the `-fs-limit` throttle of `getUniqueHashes` does not do what the
claim (and the flag's own documentation) says, already for `fsLimit = 1` and a
two-file bucket:
* because each worker runs `wg.Add(1)` only once scheduled — not before being
  spawned — `wg.Wait()` can observe a zero counter before worker 0 registers,
  so the engine reaches a state with *both* workers in flight: the claimed
  bound `inFlight ≤ L = 1` is violated;
* conversely, if worker 0 does register before `wg.Wait()` runs, the engine
  deadlocks: the worker's deferred `wg.Done()` only runs after its channel
  send, the send is only received once the spawn loop has ended, and the
  spawn loop is blocked in `wg.Wait()` — a reachable stuck state that is not
  the finished state. -/
theorem c5_fs_limit_bound_violated_and_deadlock :
    (EngReach 2 1 (engInit 2) ⟨[.spawned, .spawned], .waitWG 1⟩ ∧
      1 < inFlight [.spawned, .spawned]) ∧
    (EngReach 2 1 (engInit 2) ⟨[.ready], .waitWG 0⟩ ∧
      (∀ s', ¬ Step 2 1 ⟨[.ready], .waitWG 0⟩ s') ∧
      EngState.pc ⟨[.ready], .waitWG 0⟩ ≠ .finished) := by
  have h1 : Step 2 1 (engInit 2) ⟨[.spawned], .waitWG 0⟩ :=
    Step.spawn 0 [] (by decide)
  refine ⟨⟨?_, by decide⟩, ?_, ?_, by decide⟩
  · have h2 : Step 2 1 ⟨[.spawned], .waitWG 0⟩ ⟨[.spawned], .launch 1⟩ :=
      Step.waitPass 0 [.spawned] (by decide)
    have h3 : Step 2 1 ⟨[.spawned], .launch 1⟩ ⟨[.spawned, .spawned], .waitWG 1⟩ :=
      Step.spawn 1 [.spawned] (by decide)
    exact Relation.ReflTransGen.tail
      (Relation.ReflTransGen.tail (Relation.ReflTransGen.single h1) h2) h3
  · have h2 : Step 2 1 ⟨[.spawned], .waitWG 0⟩ ⟨[.added], .waitWG 0⟩ :=
      Step.add 0 [.spawned] (.waitWG 0) rfl
    have h3 : Step 2 1 ⟨[.added], .waitWG 0⟩ ⟨[.ready], .waitWG 0⟩ :=
      Step.hash 0 [.added] (.waitWG 0) rfl
    exact Relation.ReflTransGen.tail
      (Relation.ReflTransGen.tail (Relation.ReflTransGen.single h1) h2) h3
  · intro s' hstep
    cases hstep with
    | add w ws pc hw =>
      cases w with
      | zero => simp at hw
      | succ n => simp [List.get?] at hw
    | hash w ws pc hw =>
      cases w with
      | zero => simp at hw
      | succ n => simp [List.get?] at hw
    | waitPass i ws hwg => exact absurd hwg (by decide)

end Dblfinder
